import Mathlib

/-!
# StreakForge — Habit Analytics & Streak Computation Engine

Shallow embedding of the analytics computations of the StreakForge habit
tracker (React/TypeScript frontend), and proofs about them.

Modelling conventions:
* Calendar dates carry no time component in the source (ISO `yyyy-MM-dd`
  strings, compared for string equality, or `Date` objects at midnight).
  We model a calendar date as an `Int` day number; day `0` is a Sunday, so
  that `date-fns`'s default `startOfWeek` (weeks start on Sunday) becomes
  `d - d % 7`.
* The reference "now" (`new Date()` / `Date.now()` in the source) is passed
  explicitly as an `asOf : Int` day number.
* `Record<number, T[]>` lookups written `m[habit.id] || []` become a total
  function `Nat → List T`; `Record<number, T>` lookups written
  `m[habit.id]?.f || 0` become association-list lookups returning `Option`.
* JavaScript `Math.round` is Mathlib's `round` on `ℚ` (both are
  `⌊x + 1/2⌋`).
-/

/-- `HabitResponse`: the fields the analytics components read.
`category` is `Option String`; the source tests it with JS truthiness
(`habit.category || 'Uncategorized'`), so `none` *and* the empty string
both fall back to `"Uncategorized"`. `created_at` is a day number. -/
structure Habit where
  id : Nat
  name : String
  category : Option String
  created_at : Int
deriving Repr, DecidableEq

/-- `CompletionResponse`: the fields the analytics components read.
`completion_date` is a day number (the source compares ISO date strings). -/
structure Completion where
  habit_id : Nat
  completion_date : Int
deriving Repr, DecidableEq

/-- `StreakResponse`: cached streak figures keyed by habit id. -/
structure StreakResponse where
  habit_id : Nat
  current_streak : Nat
  longest_streak : Nat
deriving Repr, DecidableEq

/-- `habitCompletions.some(c => c.completion_date === checkDateStr)`
(StreakChart / CompletionChart). -/
def hasCompletionOn (comps : List Completion) (d : Int) : Bool :=
  comps.any (fun c => c.completion_date == d)

/-- The backward while-loop of `StreakChart` (CategoryChart.tsx lines
226–242), run on explicit fuel.  The loop guard `currentDate >= created`
holds for exactly `(d + 1 - created).toNat` iterations starting from `d`,
so `streakAt` below passes that number as fuel; each iteration checks
`hasCompletion`, and either increments the streak and steps one day back,
or breaks. -/
def streakAtAux (comps : List Completion) : Nat → Int → Nat
  | 0, _ => 0
  | fuel + 1, d =>
    if hasCompletionOn comps d then streakAtAux comps fuel (d - 1) + 1 else 0

/-- Current streak of a habit as of date `d`, as computed by `StreakChart`:
walk backwards from `d` one day at a time while the date is on or after the
habit's creation date and has a completion; the count of consecutive
completed days found is the streak. -/
def streakAt (comps : List Completion) (created d : Int) : Nat :=
  streakAtAux comps (d + 1 - created).toNat d

theorem streakAt_eq_zero_of_lt (comps : List Completion) {created d : Int}
    (h : d < created) : streakAt comps created d = 0 := by
  unfold streakAt
  have : (d + 1 - created).toNat = 0 := by omega
  rw [this]
  rfl

theorem streakAt_step (comps : List Completion) {created d : Int}
    (h : created ≤ d) :
    streakAt comps created d =
      if hasCompletionOn comps d then streakAt comps created (d - 1) + 1
      else 0 := by
  unfold streakAt
  have h1 : (d + 1 - created).toNat = (d - created).toNat + 1 := by omega
  have h2 : (d - 1 + 1 - created).toNat = (d - created).toNat := by omega
  rw [h1, h2]
  rfl

/-- Helper for C1: along a fully completed range the walk counts every
day. -/
theorem streakAtAux_full (comps : List Completion) :
    ∀ (n : Nat) (d : Int),
      (∀ e : Int, d - n ≤ e → e ≤ d → hasCompletionOn comps e = true) →
      streakAtAux comps (n + 1) d = n + 1 := by
  intro n
  induction n with
  | zero =>
    intro d hall
    have hd : hasCompletionOn comps d = true := hall d (by omega) (by omega)
    simp [streakAtAux, hd]
  | succ m ih =>
    intro d hall
    have hd : hasCompletionOn comps d = true := hall d (by omega) (by omega)
    have hrec := ih (d - 1) (fun e h1 h2 => hall e (by omega) (by omega))
    show (if hasCompletionOn comps d = true then
        streakAtAux comps (m + 1) (d - 1) + 1 else 0) = m + 1 + 1
    rw [if_pos hd, hrec]

/-- C1 (core): if every day from `created` through `asOf` has a
completion, the backward walk counts exactly `asOf - created + 1` days. -/
theorem streakAt_full_range (comps : List Completion) {created asOf : Int}
    (hle : created ≤ asOf)
    (hall : ∀ d : Int, created ≤ d → d ≤ asOf → hasCompletionOn comps d = true) :
    (streakAt comps created asOf : Int) = asOf - created + 1 := by
  unfold streakAt
  have hn : (asOf + 1 - created).toNat = (asOf - created).toNat + 1 := by omega
  rw [hn]
  have := streakAtAux_full comps (asOf - created).toNat asOf
    (fun e h1 h2 => hall e (by omega) h2)
  rw [this]
  omega

/-- C2 (amended core): the `StreakChart` walk has no grace day — whenever
the as-of date itself has no completion, the loop breaks on its first
iteration and the current streak is `0`, no matter what earlier days hold. -/
theorem streakAt_zero_of_missing_asOf (comps : List Completion)
    {created d : Int} (h : hasCompletionOn comps d = false) :
    streakAt comps created d = 0 := by
  rcases lt_or_le d created with hlt | hle
  · exact streakAt_eq_zero_of_lt comps hlt
  · rw [streakAt_step comps hle, h]
    rfl

/-! ## Completion Index and longest streak

The backend Streak Calculator is not part of the frontend sources; the
spec (§4.1/§4.2) describes it.  The two definitions below follow the
spec's words. -/

/-- Insert a date into an ascending, duplicate-free date list, keeping it
ascending and duplicate-free. -/
def insertDate (d : Int) : List Int → List Int
  | [] => [d]
  | x :: rest =>
    if d < x then d :: x :: rest
    else if d = x then x :: rest
    else x :: insertDate d rest

/-- Modelled from the spec: the Completion Index (§4.1, not under the
frontend sources) — "given a habit's unordered list of Completions, build
a set keyed by calendar date", "duplicate-date completions are merged";
realised as the ascending duplicate-free list of completion dates. -/
def completionIndex (comps : List Completion) : List Int :=
  comps.foldl (fun acc c => insertDate c.completion_date acc) []

/-- One pass of the spec's longest-streak scan: walk the ascending date
list, extend the current run while each date is the previous plus one day,
and track the best run length seen. -/
def runScan : List Int → Int → Nat → Nat → Nat
  | [], _, cur, best => max best cur
  | d :: rest, prev, cur, best =>
    if d = prev + 1 then runScan rest d (cur + 1) best
    else runScan rest d 1 (max best cur)

/-- Modelled from the spec: the longest streak (§4.2 step 1, backend not
under the frontend sources) — "scan all dates in the Completion Index in
ascending order; walk consecutive-day runs ...; track the maximum run
length encountered. Empty index → longest = 0." -/
def longestStreak (comps : List Completion) : Nat :=
  match completionIndex comps with
  | [] => 0
  | d :: rest => runScan rest d 1 0

/-- Membership in an `insertDate` result. -/
theorem mem_insertDate {y d : Int} {l : List Int} :
    y ∈ insertDate d l ↔ y = d ∨ y ∈ l := by
  induction l with
  | nil => simp [insertDate]
  | cons x rest ih =>
    simp only [insertDate]
    rcases lt_trichotomy d x with hlt | heq | hgt
    · rw [if_pos hlt]
      simp [or_comm, or_assoc, or_left_comm]
    · rw [if_neg (by omega), if_pos heq]
      subst heq
      simp only [List.mem_cons]
      tauto
    · rw [if_neg (by omega), if_neg (by omega)]
      simp only [List.mem_cons, ih]
      tauto

/-- Sortedness invariant maintained by `insertDate`. -/
theorem insertDate_sorted {l : List Int} (d : Int)
    (h : l.Pairwise (· < ·)) : (insertDate d l).Pairwise (· < ·) := by
  induction l with
  | nil => simp [insertDate]
  | cons x rest ih =>
    have hx : ∀ y ∈ rest, x < y := (List.pairwise_cons.mp h).1
    have hrest : rest.Pairwise (· < ·) := (List.pairwise_cons.mp h).2
    simp only [insertDate]
    rcases lt_trichotomy d x with hlt | heq | hgt
    · rw [if_pos hlt]
      refine List.pairwise_cons.mpr ⟨?_, h⟩
      intro y hy
      rcases List.mem_cons.mp hy with rfl | hy'
      · exact hlt
      · exact hlt.trans (hx y hy')
    · rw [if_neg (by omega), if_pos heq]
      exact h
    · rw [if_neg (by omega), if_neg (by omega)]
      refine List.pairwise_cons.mpr ⟨?_, ih hrest⟩
      intro y hy
      rcases mem_insertDate.mp hy with rfl | hy'
      · exact hgt
      · exact hx y hy'

/-- Inserting a date already present in a sorted index is a no-op. -/
theorem insertDate_mem {l : List Int} {d : Int}
    (hs : l.Pairwise (· < ·)) (hmem : d ∈ l) : insertDate d l = l := by
  induction l with
  | nil => cases hmem
  | cons x rest ih =>
    have hx : ∀ y ∈ rest, x < y := (List.pairwise_cons.mp hs).1
    have hrest : rest.Pairwise (· < ·) := (List.pairwise_cons.mp hs).2
    simp only [insertDate]
    rcases List.mem_cons.mp hmem with rfl | hmem'
    · rw [if_neg (by omega), if_pos rfl]
    · have hlt : x < d := hx d hmem'
      rw [if_neg (by omega), if_neg (by omega), ih hrest hmem']

/-- The Completion Index is always an ascending duplicate-free list. -/
theorem completionIndex_sorted (comps : List Completion) :
    (completionIndex comps).Pairwise (· < ·) := by
  unfold completionIndex
  suffices h : ∀ acc : List Int, acc.Pairwise (· < ·) →
      (comps.foldl (fun acc c => insertDate c.completion_date acc) acc).Pairwise
        (· < ·) from h [] (by simp)
  induction comps with
  | nil => intro acc hacc; exact hacc
  | cons c rest ih =>
    intro acc hacc
    exact ih (insertDate c.completion_date acc) (insertDate_sorted _ hacc)

/-- The Completion Index holds exactly the completion dates. -/
theorem mem_completionIndex {d : Int} {comps : List Completion} :
    d ∈ completionIndex comps ↔ ∃ c ∈ comps, c.completion_date = d := by
  unfold completionIndex
  suffices h : ∀ acc : List Int,
      (d ∈ comps.foldl (fun acc c => insertDate c.completion_date acc) acc ↔
        (∃ c ∈ comps, c.completion_date = d) ∨ d ∈ acc) by
    rw [h []]
    simp
  induction comps with
  | nil => intro acc; simp
  | cons c rest ih =>
    intro acc
    rw [List.foldl_cons, ih (insertDate c.completion_date acc), mem_insertDate]
    simp only [List.mem_cons]
    constructor
    · rintro (⟨c0, hc0, hd⟩ | rfl | hd)
      · exact Or.inl ⟨c0, Or.inr hc0, hd⟩
      · exact Or.inl ⟨c, Or.inl rfl, rfl⟩
      · exact Or.inr hd
    · rintro (⟨c0, rfl | hc0, hd⟩ | hd)
      · exact Or.inr (Or.inl hd.symm)
      · exact Or.inl ⟨c0, hc0, hd⟩
      · exact Or.inr (Or.inr hd)

/-- Appending a completion whose date the habit already has does not
change the Completion Index. -/
theorem completionIndex_append_dup (comps : List Completion)
    (c : Completion) (h : hasCompletionOn comps c.completion_date = true) :
    completionIndex (comps ++ [c]) = completionIndex comps := by
  have hfold : completionIndex (comps ++ [c]) =
      insertDate c.completion_date (completionIndex comps) := by
    unfold completionIndex
    rw [List.foldl_append]
    rfl
  rw [hfold]
  apply insertDate_mem (completionIndex_sorted comps)
  rw [mem_completionIndex]
  rcases List.any_eq_true.mp h with ⟨c0, hc0, hd⟩
  exact ⟨c0, hc0, by simpa using hd⟩

/-- Appending a completion for an already-completed date does not change
any date-membership test. -/
theorem hasCompletionOn_append_dup (comps : List Completion)
    (c : Completion) (h : hasCompletionOn comps c.completion_date = true)
    (x : Int) : hasCompletionOn (comps ++ [c]) x = hasCompletionOn comps x := by
  unfold hasCompletionOn at *
  rw [List.any_append]
  by_cases hx : c.completion_date = x
  · subst hx
    simp [h]
  · simp [hx]

/-- The backward walk only inspects `hasCompletionOn`, so two completion
lists that agree on every date-membership test give equal streaks. -/
theorem streakAtAux_congr (comps comps' : List Completion)
    (h : ∀ x : Int, hasCompletionOn comps' x = hasCompletionOn comps x) :
    ∀ (fuel : Nat) (d : Int),
      streakAtAux comps' fuel d = streakAtAux comps fuel d := by
  intro fuel
  induction fuel with
  | zero => intro d; rfl
  | succ n ih =>
    intro d
    show (if hasCompletionOn comps' d = true then
        streakAtAux comps' n (d - 1) + 1 else 0) =
      (if hasCompletionOn comps d = true then
        streakAtAux comps n (d - 1) + 1 else 0)
    rw [h d, ih (d - 1)]

/-- C6: appending a duplicate completion (a record for a date the habit
already completed) changes neither the current streak computed by the
`StreakChart` walk — for any creation date and any as-of date — nor the
longest streak computed from the Completion Index. -/
theorem streaks_duplicate_invariant (comps : List Completion)
    (c : Completion) (created d : Int)
    (h : hasCompletionOn comps c.completion_date = true) :
    streakAt (comps ++ [c]) created d = streakAt comps created d ∧
    longestStreak (comps ++ [c]) = longestStreak comps := by
  constructor
  · unfold streakAt
    exact streakAtAux_congr comps (comps ++ [c])
      (hasCompletionOn_append_dup comps c h) _ d
  · unfold longestStreak
    rw [completionIndex_append_dup comps c h]

/-- Witness for C6 at a concrete input: one habit completed on day 5,
duplicate record for day 5 appended. -/
theorem streaks_duplicate_invariant_witness :
    streakAt ([⟨0, 5⟩, ⟨0, 6⟩] ++ [⟨0, 5⟩]) 5 6 = streakAt [⟨0, 5⟩, ⟨0, 6⟩] 5 6 ∧
    longestStreak ([⟨0, 5⟩, ⟨0, 6⟩] ++ [⟨0, 5⟩]) = longestStreak [⟨0, 5⟩, ⟨0, 6⟩] :=
  streaks_duplicate_invariant [⟨0, 5⟩, ⟨0, 6⟩] ⟨0, 5⟩ 5 6 (by decide)

/-- Witness for C1 at a concrete input: habit created day 0, completions
on days 0, 1, 2, as-of day 2: streak is 3. -/
theorem streakAt_full_range_witness :
    (streakAt [⟨0, 0⟩, ⟨0, 1⟩, ⟨0, 2⟩] 0 2 : Int) = 2 - 0 + 1 :=
  streakAt_full_range [⟨0, 0⟩, ⟨0, 1⟩, ⟨0, 2⟩] (by decide)
    (by
      intro d h1 h2
      have : d = 0 ∨ d = 1 ∨ d = 2 := by omega
      rcases this with rfl | rfl | rfl <;> decide)

/-- C2 (counterexample): habit created day 0 with a completion on day 0
only; as of day 1 the as-of date has no completion but the day exactly one
before does, yet the computed current streak is 0, not the 1 the grace-day
policy would give. -/
theorem streak_no_grace_cex :
    hasCompletionOn [⟨0, 0⟩] 1 = false ∧
    hasCompletionOn [⟨0, 0⟩] 0 = true ∧
    streakAt [⟨0, 0⟩] 0 0 = 1 ∧
    streakAt [⟨0, 0⟩] 0 1 = 0 := by
  decide

/-- Witness for the amended C2 at a concrete input. -/
theorem streakAt_zero_of_missing_asOf_witness :
    streakAt [⟨0, 0⟩, ⟨0, 1⟩] 0 3 = 0 :=
  streakAt_zero_of_missing_asOf [⟨0, 0⟩, ⟨0, 1⟩] (by decide)

/-! ## Trend Bucketer (`CompletionChart`)

`date-fns` with its default options starts weeks on Sunday; day `0` of the
day-number model is a Sunday, so `startOfWeek` is `d - d % 7`. -/

/-- `startOfWeek` of date-fns (weeks start on Sunday). -/
def startOfWeek (d : Int) : Int := d - d % 7

/-- `endOfWeek` of date-fns (the Saturday of `d`'s week; time-of-day does
not exist in the day-number model). -/
def endOfWeek (d : Int) : Int := startOfWeek d + 6

/-- `eachDayOfInterval({start, end})`: every day from `start` to `stop`
inclusive, ascending. -/
def eachDayOfInterval (start stop : Int) : List Int :=
  (List.range (stop + 1 - start).toNat).map (fun (i : Nat) => start + (i : Int))

/-- `eachWeekOfInterval({start, end})`: the week-start days of every week
from `start`'s week through the last week beginning on or before `stop`,
ascending. -/
def eachWeekOfInterval (start stop : Int) : List Int :=
  if startOfWeek start ≤ stop then
    (List.range ((stop - startOfWeek start).toNat / 7 + 1)).map
      (fun (i : Nat) => startOfWeek start + 7 * (i : Int))
  else []

/-- `period` prop of `CompletionChart`. -/
inductive Period
  | daily
  | weekly
deriving DecidableEq, Repr

/-- One `ChartDataPoint` of `CompletionChart`.  `label` is the bucket's
date (the source formats it as `'MMM dd'` for display);
`completionRate` is the `Math.round`ed percentage. -/
structure Bucket where
  label : Int
  completions : Nat
  totalHabits : Nat
  completionRate : Int
deriving Repr, DecidableEq

/-- Daily branch of the bucket loop: one count per habit that has a
completion on day `d`. -/
def dailyCompletions (habits : List Habit)
    (completions : Nat → List Completion) (d : Int) : Nat :=
  habits.countP (fun h => hasCompletionOn (completions h.id) d)

/-- Weekly branch of the bucket loop: for every day of the week of
`date`, one count per habit that has a completion on that day (the inner
two `forEach` loops, lines 53–62). -/
def weeklyCompletions (habits : List Habit)
    (completions : Nat → List Completion) (date : Int) : Nat :=
  ((eachDayOfInterval (startOfWeek date) (endOfWeek date)).map
    (fun day => dailyCompletions habits completions day)).sum

/-- Builds one chart data point:
`completionRate = totalHabits > 0 ? (periodCompletions / totalHabits) * 100 : 0`,
then `Math.round`ed. -/
def mkBucket (label : Int) (periodCompletions totalHabits : Nat) : Bucket :=
  let rate : ℚ :=
    if 0 < totalHabits then ((periodCompletions : ℚ) / totalHabits) * 100
    else 0
  { label := label, completions := periodCompletions,
    totalHabits := totalHabits, completionRate := round rate }

/-- The `chartData` computation of `CompletionChart` (lines 26–86):
`endDate = asOf`, `startDate = subDays(endDate, days - 1)`, the interval
list by granularity, and one bucket per interval date. -/
def computeTrend (habits : List Habit) (completions : Nat → List Completion)
    (asOf : Int) (days : Nat) (period : Period) : List Bucket :=
  let endDate := asOf
  let startDate := endDate - ((days : Int) - 1)
  let intervals : List Int :=
    match period with
    | .weekly => eachWeekOfInterval (startOfWeek startDate) (endOfWeek endDate)
    | .daily => eachDayOfInterval startDate endDate
  intervals.map (fun date =>
    let periodCompletions :=
      match period with
      | .weekly => weeklyCompletions habits completions date
      | .daily => dailyCompletions habits completions date
    mkBucket date periodCompletions habits.length)

theorem startOfWeek_idem (d : Int) : startOfWeek (startOfWeek d) = startOfWeek d := by
  unfold startOfWeek
  omega

/-- The daily trend series carries its interval dates as labels, in order. -/
theorem computeTrend_labels_daily (habits : List Habit)
    (completions : Nat → List Completion) (asOf : Int) (days : Nat) :
    (computeTrend habits completions asOf days .daily).map (fun b => b.label) =
      eachDayOfInterval (asOf - ((days : Int) - 1)) asOf := by
  simp only [computeTrend, List.map_map]
  exact List.map_id _

/-- The weekly trend series carries its week-start dates as labels, in
order. -/
theorem computeTrend_labels_weekly (habits : List Habit)
    (completions : Nat → List Completion) (asOf : Int) (days : Nat) :
    (computeTrend habits completions asOf days .weekly).map (fun b => b.label) =
      eachWeekOfInterval (startOfWeek (asOf - ((days : Int) - 1)))
        (endOfWeek asOf) := by
  simp only [computeTrend, List.map_map]
  exact List.map_id _

/-- Each-day lists are strictly increasing. -/
theorem eachDayOfInterval_sorted (start stop : Int) :
    (eachDayOfInterval start stop).Pairwise (· < ·) := by
  unfold eachDayOfInterval
  rw [List.pairwise_map]
  refine (List.pairwise_lt_range _).imp ?_
  intro a b h
  show start + (a : Int) < start + (b : Int)
  omega

/-- Each-week lists are strictly increasing. -/
theorem eachWeekOfInterval_sorted (start stop : Int) :
    (eachWeekOfInterval start stop).Pairwise (· < ·) := by
  unfold eachWeekOfInterval
  split
  · rw [List.pairwise_map]
    refine (List.pairwise_lt_range _).imp ?_
    intro a b h
    show startOfWeek start + 7 * (a : Int) < startOfWeek start + 7 * (b : Int)
    omega
  · exact List.Pairwise.nil

/-- Length of the weekly trend series: one bucket per calendar week from
the week containing the window's first day through the week containing the
as-of day. -/
theorem computeTrend_weekly_length (habits : List Habit)
    (completions : Nat → List Completion) (asOf : Int) {days : Nat}
    (h : 1 ≤ days) :
    (computeTrend habits completions asOf days .weekly).length =
      (endOfWeek asOf - startOfWeek (asOf - ((days : Int) - 1))).toNat / 7 + 1 := by
  have hcond : startOfWeek (asOf - ((days : Int) - 1)) ≤ endOfWeek asOf := by
    simp only [startOfWeek, endOfWeek]
    omega
  simp only [computeTrend, startOfWeek_idem, eachWeekOfInterval, if_pos hcond,
    List.length_map, List.length_range]

/-- C3 (amended): the daily series always has exactly `days` buckets; the
weekly series has either `⌈days / 7⌉` or `⌈days / 7⌉ + 1` buckets — one per
calendar week overlapping the window, which depends on where the window
falls within the week; both series are oldest first (strictly increasing
bucket dates). -/
theorem computeTrend_bucket_counts (habits : List Habit)
    (completions : Nat → List Completion) (asOf : Int) {days : Nat}
    (h : 1 ≤ days) :
    (computeTrend habits completions asOf days .daily).length = days ∧
    (days + 6) / 7 ≤ (computeTrend habits completions asOf days .weekly).length ∧
    (computeTrend habits completions asOf days .weekly).length ≤ (days + 6) / 7 + 1 ∧
    ((computeTrend habits completions asOf days .daily).map
      (fun b => b.label)).Pairwise (· < ·) ∧
    ((computeTrend habits completions asOf days .weekly).map
      (fun b => b.label)).Pairwise (· < ·) := by
  have hw := computeTrend_weekly_length habits completions asOf h
  refine ⟨?_, ?_, ?_, ?_, ?_⟩
  · simp only [computeTrend, eachDayOfInterval, List.length_map,
      List.length_range]
    omega
  · rw [hw]
    simp only [endOfWeek, startOfWeek]
    omega
  · rw [hw]
    simp only [endOfWeek, startOfWeek]
    omega
  · rw [computeTrend_labels_daily]
    exact eachDayOfInterval_sorted _ _
  · rw [computeTrend_labels_weekly]
    exact eachWeekOfInterval_sorted _ _

/-- Witness for the amended C3 at a concrete input (30-day window ending
on a Sunday). -/
theorem computeTrend_bucket_counts_witness :
    (computeTrend [] (fun _ => []) 0 30 .daily).length = 30 ∧
    (30 + 6) / 7 ≤ (computeTrend [] (fun _ => []) 0 30 .weekly).length ∧
    (computeTrend [] (fun _ => []) 0 30 .weekly).length ≤ (30 + 6) / 7 + 1 ∧
    ((computeTrend [] (fun _ => []) 0 30 .daily).map
      (fun b => b.label)).Pairwise (· < ·) ∧
    ((computeTrend [] (fun _ => []) 0 30 .weekly).map
      (fun b => b.label)).Pairwise (· < ·) :=
  computeTrend_bucket_counts [] (fun _ => []) 0 (by decide)

/-- C3 (counterexample): a 30-day window ending on a Sunday (day 0 of the
model) spans six calendar weeks, so the weekly series has 6 buckets while
`ceil(windowDays / bucketSize) = ceil(30 / 7) = 5`. -/
theorem computeTrend_weekly_count_cex :
    (computeTrend [] (fun _ => []) 0 30 Period.weekly).length = 6 ∧
    (30 + 6) / 7 = 5 := by
  decide

/-- A `countP` is the sum of its indicator values. -/
theorem countP_eq_sum_ite {α : Type} (l : List α) (p : α → Bool) :
    l.countP p = (l.map (fun a => if p a then 1 else 0)).sum := by
  induction l with
  | nil => rfl
  | cons a l ih =>
    rw [List.countP_cons, List.map_cons, List.sum_cons, ih]
    omega

/-- Exchanging the two nested loops of the weekly-bucket count: summing
per-day habit counts equals summing per-habit day counts. -/
theorem sum_countP_swap {α β : Type} (ds : List α) (hs : List β)
    (p : α → β → Bool) :
    (ds.map (fun d => hs.countP (fun h => p d h))).sum =
      (hs.map (fun h => ds.countP (fun d => p d h))).sum := by
  induction ds with
  | nil => simp [List.countP_nil]
  | cons d ds ih =>
    simp only [List.map_cons, List.sum_cons, List.countP_cons, ih,
      List.sum_map_add, countP_eq_sum_ite hs (fun h => p d h)]
    omega

/-- C4 (amended): a weekly bucket's count is the total number of
(habit, day) pairs with a completion in that week — equivalently, each
habit contributes once per completed day of the week, so a habit completed
on several days of the same week is counted once per such day, not once. -/
theorem weekly_bucket_counts_habit_days (habits : List Habit)
    (completions : Nat → List Completion) (asOf : Int) (days : Nat)
    {b : Bucket}
    (hb : b ∈ computeTrend habits completions asOf days .weekly) :
    b.completions =
      (habits.map (fun h =>
        (eachDayOfInterval (startOfWeek b.label) (endOfWeek b.label)).countP
          (fun day => hasCompletionOn (completions h.id) day))).sum := by
  simp only [computeTrend, List.mem_map] at hb
  obtain ⟨date, hdate, rfl⟩ := hb
  show weeklyCompletions habits completions date =
    (habits.map (fun h =>
      (eachDayOfInterval (startOfWeek date) (endOfWeek date)).countP
        (fun day => hasCompletionOn (completions h.id) day))).sum
  unfold weeklyCompletions dailyCompletions
  rw [sum_countP_swap]

/-- Witness for the amended C4 at a concrete input: one habit, completions
on days 0 and 1 of the week starting at day 0, 7-day window ending day 6. -/
theorem weekly_bucket_counts_habit_days_witness :
    (Bucket.mk 0 2 1 200).completions =
      (([⟨0, "h", none, 0⟩] : List Habit).map (fun h =>
        (eachDayOfInterval (startOfWeek (Bucket.mk 0 2 1 200).label)
            (endOfWeek (Bucket.mk 0 2 1 200).label)).countP
          (fun day => hasCompletionOn
            ((fun i => if i = 0 then [⟨0, 0⟩, ⟨0, 1⟩] else []) h.id)
            day))).sum :=
  weekly_bucket_counts_habit_days [⟨0, "h", none, 0⟩]
    (fun i => if i = 0 then [⟨0, 0⟩, ⟨0, 1⟩] else []) 6 7 (by
      show (Bucket.mk 0 2 1 200) ∈ _
      simp only [computeTrend]
      refine List.mem_map.mpr ⟨0, by decide, ?_⟩
      have hw : weeklyCompletions [⟨0, "h", none, 0⟩]
          (fun i => if i = 0 then [⟨0, 0⟩, ⟨0, 1⟩] else []) 0 = 2 := by decide
      simp only [mkBucket, hw]
      norm_num [round_eq])

/-- C4 (counterexample): one habit completed on two days of the same week.
The weekly bucket's count is 2, while the number of distinct habits with at
least one completion on some day of that week is 1 — the code counts
habit-day pairs, not distinct habits. -/
theorem weekly_counts_pairs_cex :
    ((computeTrend [⟨0, "h", none, 0⟩]
        (fun i => if i = 0 then [⟨0, 0⟩, ⟨0, 1⟩] else []) 6 7 .weekly).map
      (fun b => b.completions)) = [2] ∧
    (([⟨0, "h", none, 0⟩] : List Habit).countP (fun h =>
      (eachDayOfInterval (startOfWeek 0) (endOfWeek 0)).any
        (fun day => hasCompletionOn
          ((fun i => if i = 0 then [⟨0, 0⟩, ⟨0, 1⟩] else []) h.id) day))) = 1 := by
  decide

/-! ## Category Aggregator (`CategoryChart`) -/

/-- `habit.category || 'Uncategorized'` with JavaScript truthiness: both a
missing category and the empty string fall back to `"Uncategorized"`. -/
def habitCategory (h : Habit) : String :=
  match h.category with
  | none => "Uncategorized"
  | some s => if s = "" then "Uncategorized" else s

/-- Key order of the grouping `Map`: first occurrence of each category in
the habit list (JavaScript `Map` iterates keys in insertion order). -/
def firstDedup : List String → List String
  | [] => []
  | c :: rest => c :: (firstDedup rest).filter (fun x => x ≠ c)

/-- The habits grouped under category `c`, in their original order. -/
def categoryGroup (habits : List Habit) (c : String) : List Habit :=
  habits.filter (fun h => habitCategory h == c)

/-- `streaks[habit.id]` on the record of cached streaks. -/
def findStreak (streaks : List StreakResponse) (i : Nat) :
    Option StreakResponse :=
  streaks.find? (fun s => s.habit_id == i)

/-- `metric` prop of `CategoryChart`. -/
inductive Metric
  | count
  | completion_rate
  | average_streak
deriving DecidableEq, Repr

/-- One `CategoryData` entry of `CategoryChart`.  `completionRate` is the
`Math.round`ed percentage; `averageStreak` is rounded to one decimal
place; `value` is the metric selected for the pie chart. -/
structure CategoryData where
  category : String
  value : ℚ
  count : Nat
  completionRate : Int
  averageStreak : ℚ
deriving Repr, DecidableEq

/-- `totalCompletions` for one category: sum of the raw completion-list
lengths of its habits. -/
def categoryTotalCompletions (completions : Nat → List Completion)
    (group : List Habit) : Nat :=
  (group.map (fun h => (completions h.id).length)).sum

/-- `totalPossibleCompletions` for one category:
`Math.floor((Date.now() - created_at) / msPerDay) + 1` summed over its
habits, which in the day-number model is `asOf - created_at + 1`. -/
def categoryTotalPossible (asOf : Int) (group : List Habit) : Int :=
  (group.map (fun h => asOf - h.created_at + 1)).sum

/-- The unrounded `completionRate` local of `CategoryChart`:
`totalPossibleCompletions > 0 ? (totalCompletions / totalPossibleCompletions) * 100 : 0`. -/
def categoryCompletionRateQ (completions : Nat → List Completion)
    (asOf : Int) (group : List Habit) : ℚ :=
  if 0 < categoryTotalPossible asOf group then
    ((categoryTotalCompletions completions group : ℚ) /
      (categoryTotalPossible asOf group : ℚ)) * 100
  else 0

/-- `totalStreak`: `streaks[habit.id]?.current_streak || 0` summed over
the category's habits. -/
def categoryTotalStreak (streaks : List StreakResponse)
    (group : List Habit) : Nat :=
  (group.map (fun h =>
    ((findStreak streaks h.id).map (fun s => s.current_streak)).getD 0)).sum

/-- The unrounded `averageStreak` local:
`count > 0 ? totalStreak / count : 0`. -/
def categoryAverageStreakQ (streaks : List StreakResponse)
    (group : List Habit) : ℚ :=
  if 0 < group.length then
    (categoryTotalStreak streaks group : ℚ) / (group.length : ℚ)
  else 0

/-- The `switch (metric)` that picks the pie-chart `value`. -/
def metricValue (metric : Metric) (count : Nat) (rateQ avgQ : ℚ) : ℚ :=
  match metric with
  | .completion_rate => (round rateQ : ℚ)
  | .average_streak => (round (avgQ * 10) : ℚ) / 10
  | .count => (count : ℚ)

/-- The `CategoryData` record built for one category. -/
def categoryDataFor (completions : Nat → List Completion)
    (streaks : List StreakResponse) (asOf : Int) (metric : Metric)
    (c : String) (group : List Habit) : CategoryData :=
  let rateQ := categoryCompletionRateQ completions asOf group
  let avgQ := categoryAverageStreakQ streaks group
  { category := c,
    value := metricValue metric group.length rateQ avgQ,
    count := group.length,
    completionRate := round rateQ,
    averageStreak := (round (avgQ * 10) : ℚ) / 10 }

/-- Stable insertion of an entry into a list already sorted descending by
`value`: the entry goes before the first element whose value is less than
or equal to its own, i.e. before all equal-valued elements that were
originally after it. -/
def insertByValueDesc (a : CategoryData) :
    List CategoryData → List CategoryData
  | [] => [a]
  | b :: rest =>
    if b.value ≤ a.value then a :: b :: rest
    else b :: insertByValueDesc a rest

/-- `data.sort((a, b) => b.value - a.value)`: ECMAScript `Array.prototype.sort`
is a stable sort, and for the consistent comparator `b.value - a.value`
its output is the unique stable descending-by-`value` reordering, which
this insertion sort computes. -/
def sortByValueDesc : List CategoryData → List CategoryData
  | [] => []
  | a :: rest => insertByValueDesc a (sortByValueDesc rest)

/-- The `categoryData` computation of `CategoryChart` (lines 26–94):
group by category, build each category's entry, sort by `value`
descending. -/
def categoryStats (habits : List Habit) (completions : Nat → List Completion)
    (streaks : List StreakResponse) (asOf : Int) (metric : Metric) :
    List CategoryData :=
  sortByValueDesc ((firstDedup (habits.map habitCategory)).map
    (fun c => categoryDataFor completions streaks asOf metric c
      (categoryGroup habits c)))

/-- Membership in a stable insertion. -/
theorem mem_insertByValueDesc {x a : CategoryData} {l : List CategoryData} :
    x ∈ insertByValueDesc a l ↔ x = a ∨ x ∈ l := by
  induction l with
  | nil => simp [insertByValueDesc]
  | cons b rest ih =>
    simp only [insertByValueDesc]
    split
    · simp [or_comm, or_assoc, or_left_comm]
    · simp only [List.mem_cons, ih]
      tauto

/-- The sort's output has exactly the input's entries. -/
theorem mem_sortByValueDesc {x : CategoryData} {l : List CategoryData} :
    x ∈ sortByValueDesc l ↔ x ∈ l := by
  induction l with
  | nil => simp [sortByValueDesc]
  | cons a rest ih =>
    simp only [sortByValueDesc, mem_insertByValueDesc, ih, List.mem_cons]

/-- Stable insertion preserves descending order by `value`. -/
theorem insertByValueDesc_sorted {l : List CategoryData} (a : CategoryData)
    (h : l.Pairwise (fun x y => y.value ≤ x.value)) :
    (insertByValueDesc a l).Pairwise (fun x y => y.value ≤ x.value) := by
  induction l with
  | nil => simp [insertByValueDesc]
  | cons b rest ih =>
    have hb : ∀ y ∈ rest, y.value ≤ b.value := (List.pairwise_cons.mp h).1
    have hrest := (List.pairwise_cons.mp h).2
    simp only [insertByValueDesc]
    split
    · next hba =>
      refine List.pairwise_cons.mpr ⟨?_, h⟩
      intro y hy
      rcases List.mem_cons.mp hy with rfl | hy'
      · exact hba
      · exact (hb y hy').trans hba
    · next hba =>
      refine List.pairwise_cons.mpr ⟨?_, ih hrest⟩
      intro y hy
      rcases mem_insertByValueDesc.mp hy with rfl | hy'
      · exact le_of_lt (lt_of_not_le hba)
      · exact hb y hy'

/-- The sort's output is descending by `value`. -/
theorem sortByValueDesc_sorted (l : List CategoryData) :
    (sortByValueDesc l).Pairwise (fun x y => y.value ≤ x.value) := by
  induction l with
  | nil => simp [sortByValueDesc]
  | cons a rest ih => exact insertByValueDesc_sorted a ih

/-- Inserting an entry with the filtered value puts it in front of the
tied block; entries with other values pass through. -/
theorem filter_insertByValueDesc (a : CategoryData) (l : List CategoryData)
    (v : ℚ) :
    (insertByValueDesc a l).filter (fun x => x.value == v) =
      if a.value = v then a :: l.filter (fun x => x.value == v)
      else l.filter (fun x => x.value == v) := by
  induction l with
  | nil =>
    simp only [insertByValueDesc, List.filter_cons, List.filter_nil]
    by_cases hv : a.value = v
    · simp [hv, beq_iff_eq]
    · simp [hv, beq_iff_eq]
  | cons b rest ih =>
    simp only [insertByValueDesc]
    by_cases hba : b.value ≤ a.value
    · rw [if_pos hba]
      by_cases hv : a.value = v
      · simp [List.filter_cons, hv, beq_iff_eq]
      · simp [List.filter_cons, hv, beq_iff_eq]
    · rw [if_neg hba]
      have hab : a.value < b.value := lt_of_not_le hba
      by_cases hv : a.value = v
      · have hbv : ¬ b.value = v := by
          intro hbv
          exact absurd (hbv ▸ hab) (by simp [hv])
        simp [List.filter_cons, ih, hv, hbv, beq_iff_eq]
      · simp [List.filter_cons, ih, hv, beq_iff_eq]

/-- For each tied value, the sort keeps the input's relative order
(stability). -/
theorem sortByValueDesc_filter (l : List CategoryData) (v : ℚ) :
    (sortByValueDesc l).filter (fun x => x.value == v) =
      l.filter (fun x => x.value == v) := by
  induction l with
  | nil => rfl
  | cons a rest ih =>
    simp only [sortByValueDesc, filter_insertByValueDesc, ih,
      List.filter_cons]
    by_cases hv : a.value = v
    · simp [hv, beq_iff_eq]
    · simp [hv, beq_iff_eq]

/-- C8 (amended): the category statistics are sorted descending by the
requested metric's `value`; among entries with an equal value, the output
keeps the order in which the categories first appear in the habit list
(the ECMAScript sort is stable) — not ascending category name. -/
theorem categoryStats_sorted_stable (habits : List Habit)
    (completions : Nat → List Completion) (streaks : List StreakResponse)
    (asOf : Int) (metric : Metric) :
    (categoryStats habits completions streaks asOf metric).Pairwise
      (fun x y => y.value ≤ x.value) ∧
    ∀ v : ℚ,
      (categoryStats habits completions streaks asOf metric).filter
          (fun x => x.value == v) =
        ((firstDedup (habits.map habitCategory)).map
          (fun c => categoryDataFor completions streaks asOf metric c
            (categoryGroup habits c))).filter (fun x => x.value == v) := by
  constructor
  · exact sortByValueDesc_sorted _
  · intro v
    exact sortByValueDesc_filter _ v

/-- C8 (counterexample): two habits in categories "B" then "A", metric
`count`, both categories holding one habit (equal metric values). The
output keeps insertion order ["B", "A"], not the name-ascending
["A", "B"] the claim requires for ties. -/
theorem categoryStats_tie_order_cex :
    ((categoryStats [⟨0, "hb", some "B", 0⟩, ⟨1, "ha", some "A", 0⟩]
        (fun _ => []) [] 0 .count).map (fun e => e.category)) = ["B", "A"] := by
  decide

/-- The claim's formula for the per-category completion percentage,
following the spec's words (§4.4): sum of completions across the habits in
the category, divided by the sum over those habits of "days elapsed since
habit creation, inclusive" — `asOf - created + 1`, floored at 1 — as a
percentage. -/
def specCategoryRatePct (completions : Nat → List Completion) (asOf : Int)
    (group : List Habit) : ℚ :=
  ((categoryTotalCompletions completions group : ℚ) /
    (((group.map (fun h => max 1 (asOf - h.created_at + 1))).sum : ℤ) : ℚ)) *
    100

/-- For habits created on or before the as-of date, the code's rate equals
the spec formula (the implicit denominators coincide, both sides are 0 for
an empty category). -/
theorem categoryCompletionRateQ_eq_spec (completions : Nat → List Completion)
    (asOf : Int) (group : List Habit)
    (hle : ∀ h ∈ group, h.created_at ≤ asOf) :
    categoryCompletionRateQ completions asOf group =
      specCategoryRatePct completions asOf group := by
  have hmap : group.map (fun h => max 1 (asOf - h.created_at + 1)) =
      group.map (fun h => asOf - h.created_at + 1) :=
    List.map_congr_left (fun h hh => by have := hle h hh; omega)
  unfold specCategoryRatePct categoryCompletionRateQ categoryTotalPossible
  rw [hmap]
  rcases eq_or_ne group [] with rfl | hne
  · simp [categoryTotalCompletions]
  · have hpos : 0 < (group.map (fun h => asOf - h.created_at + 1)).sum := by
      apply List.sum_pos
      · intro x hx
        simp only [List.mem_map] at hx
        obtain ⟨h, hh, rfl⟩ := hx
        have := hle h hh
        omega
      · simpa using hne
    rw [if_pos hpos]

/-- C7: for every habit collection whose habits are created on or before
the as-of date, every emitted category entry's (rounded) completion rate
equals the rounded spec formula over that category's group, and every
habit without a category lands in the "Uncategorized" group. -/
theorem categoryStats_rate_formula (habits : List Habit)
    (completions : Nat → List Completion) (streaks : List StreakResponse)
    (asOf : Int) (metric : Metric)
    (hcreated : ∀ h ∈ habits, h.created_at ≤ asOf) :
    (∀ e ∈ categoryStats habits completions streaks asOf metric,
      e.completionRate =
        round (specCategoryRatePct completions asOf
          (categoryGroup habits e.category))) ∧
    ∀ h ∈ habits, h.category = none →
      h ∈ categoryGroup habits "Uncategorized" := by
  constructor
  · intro e he
    rw [categoryStats, mem_sortByValueDesc] at he
    simp only [List.mem_map] at he
    obtain ⟨c, hc, rfl⟩ := he
    simp only [categoryDataFor]
    have hle : ∀ h ∈ categoryGroup habits c, h.created_at ≤ asOf := by
      intro h hh
      exact hcreated h (List.mem_filter.mp hh).1
    rw [categoryCompletionRateQ_eq_spec completions asOf _ hle]
  · intro h hh hcat
    refine List.mem_filter.mpr ⟨hh, ?_⟩
    simp [habitCategory, hcat]

/-- Witness for C7 at a concrete input: one habit in category "A" created
on day 0, one completion, as-of day 1. -/
theorem categoryStats_rate_formula_witness :
    (∀ e ∈ categoryStats [⟨0, "h", some "A", 0⟩] (fun _ => [⟨0, 0⟩]) [] 1
        .count,
      e.completionRate =
        round (specCategoryRatePct (fun _ => [⟨0, 0⟩]) 1
          (categoryGroup [⟨0, "h", some "A", 0⟩] e.category))) ∧
    ∀ h ∈ ([⟨0, "h", some "A", 0⟩] : List Habit), h.category = none →
      h ∈ categoryGroup [⟨0, "h", some "A", 0⟩] "Uncategorized" :=
  categoryStats_rate_formula [⟨0, "h", some "A", 0⟩] (fun _ => [⟨0, 0⟩]) []
    1 .count (by decide)

/-! ## Progress summary (`ProgressSummary`)

The reference "now" is the calendar day `today`; `weekAgo = subDays(today, 7)`.
`isToday(completionDate)` is day equality with `today`;
`completionDate >= weekAgo` compares day numbers. -/

/-- The `SummaryStats` record of `ProgressSummary`. -/
structure SummaryStats where
  totalHabits : Nat
  activeHabits : Nat
  todayCompletions : Nat
  yesterdayCompletions : Nat
  weekCompletions : Nat
  totalCompletions : Nat
  longestStreak : Nat
  averageStreak : ℚ
  completionRate : Int
  weeklyCompletionRate : Int
deriving Repr, DecidableEq

/-- The `stats` computation of `ProgressSummary` (part_006 lines 30–106).
`yesterdayCompletions` is declared, initialised to 0, and never
incremented in the source; the model keeps that behaviour. -/
def computeSummary (habits : List Habit)
    (completions : Nat → List Completion) (streaks : List StreakResponse)
    (today : Int) : SummaryStats :=
  let totalHabits := habits.length
  let activeHabits := habits.countP (fun h =>
    match findStreak streaks h.id with
    | some s => 0 < s.current_streak
    | none => false)
  let weekAgo := today - 7
  let todayCompletions := (habits.map (fun h =>
    (completions h.id).countP (fun c => c.completion_date == today))).sum
  let yesterdayCompletions := 0
  let weekCompletions := (habits.map (fun h =>
    (completions h.id).countP (fun c => weekAgo ≤ c.completion_date))).sum
  let totalCompletions := (habits.map (fun h =>
    (completions h.id).length)).sum
  let longest := streaks.foldl (fun mx s => max mx s.longest_streak) 0
  let totalCurrentStreak := (streaks.map (fun s => s.current_streak)).sum
  let averageStreakQ : ℚ :=
    if 0 < totalHabits then (totalCurrentStreak : ℚ) / (totalHabits : ℚ)
    else 0
  let daysSinceOldestHabit : Int :=
    match habits with
    | [] => 1
    | h0 :: rest =>
      max 1 (today - (rest.map (fun h => h.created_at)).foldl min h0.created_at)
  let totalPossibleCompletions : Int := (totalHabits : Int) * daysSinceOldestHabit
  let completionRateQ : ℚ :=
    if 0 < totalPossibleCompletions then
      ((totalCompletions : ℚ) / (totalPossibleCompletions : ℚ)) * 100
    else 0
  let weeklyPossibleCompletions := totalHabits * 7
  let weeklyCompletionRateQ : ℚ :=
    if 0 < weeklyPossibleCompletions then
      ((weekCompletions : ℚ) / (weeklyPossibleCompletions : ℚ)) * 100
    else 0
  { totalHabits := totalHabits,
    activeHabits := activeHabits,
    todayCompletions := todayCompletions,
    yesterdayCompletions := yesterdayCompletions,
    weekCompletions := weekCompletions,
    totalCompletions := totalCompletions,
    longestStreak := longest,
    averageStreak := (round (averageStreakQ * 10) : ℚ) / 10,
    completionRate := round completionRateQ,
    weeklyCompletionRate := round weeklyCompletionRateQ }

/-- C10: the summary's count of yesterday's completions is always 0 (the
source initialises it and never increments it), so the displayed
"vs Yesterday" delta, `todayCompletions - yesterdayCompletions`, always
equals today's completion count. -/
theorem summary_yesterday_zero (habits : List Habit)
    (completions : Nat → List Completion) (streaks : List StreakResponse)
    (today : Int) :
    (computeSummary habits completions streaks today).yesterdayCompletions
      = 0 ∧
    ((computeSummary habits completions streaks today).todayCompletions : Int)
        - ((computeSummary habits completions streaks today).yesterdayCompletions : Int)
      = ((computeSummary habits completions streaks today).todayCompletions : Int) := by
  refine ⟨rfl, ?_⟩
  show ((computeSummary habits completions streaks today).todayCompletions : Int)
      - ((0 : Nat) : Int) = _
  omega

/-! ## Bounds on the rounded rates -/

theorem round_nonneg_of_nonneg {q : ℚ} (h : 0 ≤ q) : 0 ≤ round q := by
  rw [round_eq]
  apply Int.floor_nonneg.mpr
  linarith

theorem round_le_100 {q : ℚ} (h : q ≤ 100) : round q ≤ 100 := by
  have h2 : round q ≤ round (100 : ℚ) := by
    rw [round_eq, round_eq]
    exact Int.floor_le_floor (by linarith)
  simpa using h2

/-- When at most `t` of `t` habits are counted, the rounded percentage is
within `[0, 100]`. -/
theorem mkBucket_rate_bounds (label : Int) {c t : Nat} (hct : c ≤ t) :
    0 ≤ (mkBucket label c t).completionRate ∧
    (mkBucket label c t).completionRate ≤ 100 := by
  have hq0 : (0 : ℚ) ≤ (if 0 < t then ((c : ℚ) / t) * 100 else 0) := by
    split
    · positivity
    · exact le_refl 0
  have hq1 : (if 0 < t then ((c : ℚ) / t) * 100 else 0) ≤ 100 := by
    split
    · next ht =>
      have htq : (0 : ℚ) < t := by exact_mod_cast ht
      have hdiv : (c : ℚ) / t ≤ 1 := by
        rw [div_le_one htq]
        exact_mod_cast hct
      linarith
    · norm_num
  exact ⟨round_nonneg_of_nonneg hq0, round_le_100 hq1⟩

/-- Every daily trend bucket's rate is within `[0, 100]`: at most one
count per habit per day. -/
theorem daily_bucket_rate_bounds (habits : List Habit)
    (completions : Nat → List Completion) (asOf : Int) (days : Nat) :
    ∀ b ∈ computeTrend habits completions asOf days .daily,
      0 ≤ b.completionRate ∧ b.completionRate ≤ 100 := by
  intro b hb
  simp only [computeTrend, List.mem_map] at hb
  obtain ⟨date, _, rfl⟩ := hb
  exact mkBucket_rate_bounds date (List.countP_le_length _)

/-- A duplicate-free list of dates inside `[a, b]` has at most
`b - a + 1` entries. -/
theorem length_le_days {l : List Completion} {a b : Int} (hab : a ≤ b + 1)
    (hnd : (l.map (fun c => c.completion_date)).Nodup)
    (hmem : ∀ c ∈ l, a ≤ c.completion_date ∧ c.completion_date ≤ b) :
    (l.length : Int) ≤ b - a + 1 := by
  have hlen : (l.map (fun c => c.completion_date)).length = l.length :=
    List.length_map _ _
  have hsub : (l.map (fun c => c.completion_date)).toFinset ⊆
      Finset.Icc a b := by
    intro x hx
    rw [List.mem_toFinset] at hx
    simp only [List.mem_map] at hx
    obtain ⟨c, hc, rfl⟩ := hx
    rw [Finset.mem_Icc]
    exact hmem c hc
  have hcard := List.toFinset_card_of_nodup hnd
  have hle := Finset.card_le_card hsub
  rw [hcard, Int.card_Icc, hlen] at hle
  omega

/-- Summed over a category, completions cannot outnumber the summed
possible days when each habit's completion dates are distinct and lie
between its creation date and the as-of date. -/
theorem sum_len_le_sum_days (completions : Nat → List Completion)
    (asOf : Int) :
    ∀ group : List Habit,
      (∀ h ∈ group, h.created_at ≤ asOf ∧
        ((completions h.id).map (fun c => c.completion_date)).Nodup ∧
        ∀ c ∈ completions h.id, h.created_at ≤ c.completion_date ∧
          c.completion_date ≤ asOf) →
      ((group.map (fun h => (completions h.id).length)).sum : Int) ≤
        (group.map (fun h => asOf - h.created_at + 1)).sum := by
  intro group
  induction group with
  | nil => simp
  | cons h0 rest ih =>
    intro hwf
    have h1 := length_le_days (by
        have := (hwf h0 (List.mem_cons_self h0 rest)).1
        omega)
      (hwf h0 (List.mem_cons_self h0 rest)).2.1
      (fun c hc => (hwf h0 (List.mem_cons_self h0 rest)).2.2 c hc)
    have h2 := ih (fun h hh => hwf h (List.mem_cons_of_mem h0 hh))
    simp only [List.map_cons, List.sum_cons]
    push_cast at h2 ⊢
    omega

/-- On well-formed data, the category rate before rounding is within
`[0, 100]`. -/
theorem categoryRateQ_bounds (completions : Nat → List Completion)
    (asOf : Int) (group : List Habit)
    (hwf : ∀ h ∈ group, h.created_at ≤ asOf ∧
      ((completions h.id).map (fun c => c.completion_date)).Nodup ∧
      ∀ c ∈ completions h.id, h.created_at ≤ c.completion_date ∧
        c.completion_date ≤ asOf) :
    0 ≤ categoryCompletionRateQ completions asOf group ∧
    categoryCompletionRateQ completions asOf group ≤ 100 := by
  unfold categoryCompletionRateQ
  split
  · next hpos =>
    have hposq : (0 : ℚ) < (categoryTotalPossible asOf group : ℚ) := by
      exact_mod_cast hpos
    constructor
    · positivity
    · have hle : (categoryTotalCompletions completions group : Int) ≤
          categoryTotalPossible asOf group :=
        sum_len_le_sum_days completions asOf group hwf
      have hleq : (categoryTotalCompletions completions group : ℚ) ≤
          (categoryTotalPossible asOf group : ℚ) := by exact_mod_cast hle
      have hdiv : (categoryTotalCompletions completions group : ℚ) /
          (categoryTotalPossible asOf group : ℚ) ≤ 1 := by
        rw [div_le_one hposq]
        exact hleq
      linarith
  · norm_num

/-- C5 (amended): daily trend bucket rates lie in `[0, 100]`
unconditionally; when every habit is created on or before the as-of date
and its completion dates are distinct and lie between its creation date
and the as-of date, every category's completion rate lies in `[0, 100]`
as well; weekly trend bucket rates and the progress summary's overall and
weekly rates are *not* so bounded (see the counterexample). -/
theorem rates_bounded (habits : List Habit)
    (completions : Nat → List Completion) (streaks : List StreakResponse)
    (asOf : Int) (days : Nat) (metric : Metric) :
    (∀ b ∈ computeTrend habits completions asOf days .daily,
      0 ≤ b.completionRate ∧ b.completionRate ≤ 100) ∧
    ((∀ h ∈ habits, h.created_at ≤ asOf ∧
        ((completions h.id).map (fun c => c.completion_date)).Nodup ∧
        ∀ c ∈ completions h.id, h.created_at ≤ c.completion_date ∧
          c.completion_date ≤ asOf) →
      ∀ e ∈ categoryStats habits completions streaks asOf metric,
        0 ≤ e.completionRate ∧ e.completionRate ≤ 100) := by
  constructor
  · exact daily_bucket_rate_bounds habits completions asOf days
  · intro hwf e he
    rw [categoryStats, mem_sortByValueDesc] at he
    simp only [List.mem_map] at he
    obtain ⟨c, hc, rfl⟩ := he
    simp only [categoryDataFor]
    have hb := categoryRateQ_bounds completions asOf (categoryGroup habits c)
      (fun h hh => hwf h (List.mem_filter.mp hh).1)
    exact ⟨round_nonneg_of_nonneg hb.1, round_le_100 hb.2⟩

/-- Witness for the amended C5 at a concrete input: one habit, one
completion on its creation day, as-of the next day; the well-formedness
hypothesis of the category conjunct is discharged by evaluation. -/
theorem rates_bounded_witness :
    (∀ b ∈ computeTrend [⟨0, "h", some "A", 0⟩] (fun _ => [⟨0, 0⟩]) 1 30
        .daily, 0 ≤ b.completionRate ∧ b.completionRate ≤ 100) ∧
    (∀ e ∈ categoryStats [⟨0, "h", some "A", 0⟩] (fun _ => [⟨0, 0⟩]) [] 1
        .count, 0 ≤ e.completionRate ∧ e.completionRate ≤ 100) :=
  ⟨(rates_bounded [⟨0, "h", some "A", 0⟩] (fun _ => [⟨0, 0⟩]) [] 1 30
      .count).1,
   (rates_bounded [⟨0, "h", some "A", 0⟩] (fun _ => [⟨0, 0⟩]) [] 1 30
      .count).2 (by decide)⟩

/-- C5 (counterexample): three well-formed datasets (distinct completion
dates between creation and the as-of date) produce rates above 100%.
A habit completed on two days of one week gives a weekly trend bucket rate
of 200; a habit created yesterday and completed yesterday and today gives
a summary overall rate of 200 (the overall denominator counts
`max 1 (today - oldest created)` days, with no `+ 1`); a habit completed
on each of days 3–10 with today = 10 gives a summary weekly rate of 114
(`weekCompletions` counts the 8 days with `completion_date >= weekAgo`
against the denominator `totalHabits * 7`). -/
theorem rate_exceeds_100_cex :
    ((computeTrend [⟨0, "h", none, 0⟩]
        (fun i => if i = 0 then [⟨0, 0⟩, ⟨0, 1⟩] else []) 6 7 .weekly).map
      (fun b => b.completionRate)) = [200] ∧
    (computeSummary [⟨0, "h", none, 9⟩]
        (fun i => if i = 0 then [⟨0, 9⟩, ⟨0, 10⟩] else []) [] 10).completionRate
      = 200 ∧
    (computeSummary [⟨0, "h", none, 0⟩]
        (fun i => if i = 0 then
          [⟨0, 3⟩, ⟨0, 4⟩, ⟨0, 5⟩, ⟨0, 6⟩, ⟨0, 7⟩, ⟨0, 8⟩, ⟨0, 9⟩, ⟨0, 10⟩]
        else []) [] 10).weeklyCompletionRate = 114 ∧
    (∀ h ∈ ([⟨0, "h", none, 0⟩] : List Habit), h.created_at ≤ 10 ∧
      (((fun i => if i = 0 then
          [(⟨0, 3⟩ : Completion), ⟨0, 4⟩, ⟨0, 5⟩, ⟨0, 6⟩, ⟨0, 7⟩, ⟨0, 8⟩,
            ⟨0, 9⟩, ⟨0, 10⟩]
        else []) h.id).map (fun c => c.completion_date)).Nodup ∧
      ∀ c ∈ (fun i => if i = 0 then
          [(⟨0, 3⟩ : Completion), ⟨0, 4⟩, ⟨0, 5⟩, ⟨0, 6⟩, ⟨0, 7⟩, ⟨0, 8⟩,
            ⟨0, 9⟩, ⟨0, 10⟩]
        else []) h.id, h.created_at ≤ c.completion_date ∧
          c.completion_date ≤ 10) := by
  refine ⟨?_, ?_, ?_, by decide⟩
  · have hlist : computeTrend [⟨0, "h", none, 0⟩]
        (fun i => if i = 0 then [⟨0, 0⟩, ⟨0, 1⟩] else []) 6 7 .weekly =
        [mkBucket 0 (weeklyCompletions [⟨0, "h", none, 0⟩]
          (fun i => if i = 0 then [⟨0, 0⟩, ⟨0, 1⟩] else []) 0) 1] := rfl
    have hw : weeklyCompletions [⟨0, "h", none, 0⟩]
        (fun i => if i = 0 then [⟨0, 0⟩, ⟨0, 1⟩] else []) 0 = 2 := by decide
    rw [hlist, hw]
    simp only [List.map_cons, List.map_nil, mkBucket]
    norm_num [round_eq]
  · have hT : (([⟨0, "h", none, 9⟩] : List Habit).map (fun h =>
        ((fun i => if i = 0 then [(⟨0, 9⟩ : Completion), ⟨0, 10⟩] else [])
          h.id).length)).sum = 2 := by decide
    simp only [computeSummary, hT, List.length_cons, List.length_nil,
      List.map_nil, List.foldl_nil]
    norm_num [round_eq]
  · have hW : (([⟨0, "h", none, 0⟩] : List Habit).map (fun h =>
        ((fun i => if i = 0 then
            [(⟨0, 3⟩ : Completion), ⟨0, 4⟩, ⟨0, 5⟩, ⟨0, 6⟩, ⟨0, 7⟩, ⟨0, 8⟩,
              ⟨0, 9⟩, ⟨0, 10⟩]
          else []) h.id).countP
          (fun c => 10 - 7 ≤ c.completion_date))).sum = 8 := by decide
    simp only [computeSummary, hW, List.length_cons, List.length_nil]
    norm_num [round_eq]

/-- C9: in the embedding every analytics computation is a mathematical
function of its inputs — the habit, completion and streak collections, the
window, the granularity or metric, and the explicit reference "now" — so
two evaluations on identical inputs are identical. -/
theorem analytics_deterministic (habits : List Habit)
    (completions : Nat → List Completion) (streaks : List StreakResponse)
    (asOf : Int) (days : Nat) (period : Period) (metric : Metric)
    (comps : List Completion) (created d : Int) :
    computeTrend habits completions asOf days period =
      computeTrend habits completions asOf days period ∧
    categoryStats habits completions streaks asOf metric =
      categoryStats habits completions streaks asOf metric ∧
    computeSummary habits completions streaks asOf =
      computeSummary habits completions streaks asOf ∧
    streakAt comps created d = streakAt comps created d :=
  ⟨rfl, rfl, rfl, rfl⟩
